import Mathlib

/-!
Shallow embedding of the text-layout core of `epub_converter.py`:
the CJK-aware tokenizer (`tokenize_for_wrap`), the greedy line wrapper
(`wrap_cjk_aware`), the page-flow drawing helpers (`draw_paragraph`,
`draw_image`) and the image scaler.

Python strings are modelled as `List Char`; the float page units are
modelled as `ℚ`.  The injected width capability
`pdfmetrics.stringWidth(s, font_name, font_size)` is additive over the
characters of `s` (reportlab sums per-glyph advance widths scaled by the
font size), so a font/size pair is modelled as a per-character width
function `cw : Char → ℚ` and `str_width` sums it over a string.
-/

/-- Unicode NO-BREAK SPACE, the character normalized by the tokenizer. -/
def NBSP : Char := '\u00A0'

/-- The NBSP→space normalization applied by `tokenize_for_wrap` to each
character before any other test. -/
def nbspMap (c : Char) : Char := if c = NBSP then ' ' else c

/-- Python's `str.isspace` on a single character: Unicode whitespace
(category Zs plus the bidirectional WS/B/S control characters). -/
def pyIsSpace (c : Char) : Bool :=
  let n := c.toNat
  n = 0x20 || (0x9 ≤ n && n ≤ 0xD) || (0x1C ≤ n && n ≤ 0x1F) ||
  n = 0x85 || n = 0xA0 || n = 0x1680 || (0x2000 ≤ n && n ≤ 0x200A) ||
  n = 0x2028 || n = 0x2029 || n = 0x202F || n = 0x205F || n = 0x3000

/-- The line-boundary characters recognized by Python's `str.splitlines`
(besides the two-character sequence CR LF). -/
def pyIsLinebreak (c : Char) : Bool :=
  let n := c.toNat
  n = 0xA || n = 0xB || n = 0xC || n = 0xD || n = 0x1C || n = 0x1D ||
  n = 0x1E || n = 0x85 || n = 0x2028 || n = 0x2029

/-- Python's `str.splitlines`: split at every line boundary, treating
CR LF as a single boundary; a trailing boundary does not open a final
empty line, and the empty string yields no lines at all. -/
def splitlinesL : List Char → List (List Char)
  | [] => []
  | '\r' :: '\n' :: rest => [] :: splitlinesL rest
  | c :: rest =>
    if pyIsLinebreak c then [] :: splitlinesL rest
    else
      match splitlinesL rest with
      | [] => [[c]]
      | l :: ls => (c :: l) :: ls

/-- Python's `str.lstrip()` (drop leading whitespace). -/
def lstripL (l : List Char) : List Char := l.dropWhile pyIsSpace

/-- Python's `str.rstrip()` (drop trailing whitespace), as used on each
flushed accumulator in `wrap_cjk_aware`. -/
def rstripL (l : List Char) : List Char := (l.reverse.dropWhile pyIsSpace).reverse

/-- Python's `str.strip()`, as used in the blank-sub-line test of
`wrap_cjk_aware`. -/
def stripL (l : List Char) : List Char := rstripL (lstripL l)

/-- `is_cjk_char` from `epub_converter.py`: membership of the code point
in the fixed CJK blocks (unified ideographs, extension A, hiragana,
katakana, fullwidth forms, CJK symbols and punctuation). -/
def is_cjk_char (c : Char) : Bool :=
  let code := c.toNat
  (0x4E00 ≤ code && code ≤ 0x9FFF) ||
  (0x3400 ≤ code && code ≤ 0x4DBF) ||
  (0x3040 ≤ code && code ≤ 0x309F) ||
  (0x30A0 ≤ code && code ≤ 0x30FF) ||
  (0xFF00 ≤ code && code ≤ 0xFFEF) ||
  (0x3000 ≤ code && code ≤ 0x303F)

/-- The scanning loop of `tokenize_for_wrap`: state is the pending
buffer `buf` and `last`, the class (`is_cjk_char`) of the run being
built (`none` mirrors Python's `last_cjk = None`). -/
def tokenizeAux : List Char → Option Bool → List Char → List (List Char)
  | buf, _, [] => if buf = [] then [] else [buf]
  | buf, last, c :: rest =>
    let ch := if c = NBSP then ' ' else c
    if pyIsSpace ch then
      (if buf = [] then [] else [buf]) ++ [ch] :: tokenizeAux [] none rest
    else
      let cjk := is_cjk_char ch
      match last with
      | none => tokenizeAux [ch] (some cjk) rest
      | some lc =>
        if cjk ≠ lc then buf :: tokenizeAux [ch] (some cjk) rest
        else if cjk then buf :: tokenizeAux [ch] (some cjk) rest
        else tokenizeAux (buf ++ [ch]) (some cjk) rest

/-- `tokenize_for_wrap` from `epub_converter.py`: whitespace characters
are single-character tokens, CJK characters are single-character tokens,
and maximal runs of other characters are tokens. -/
def tokenize_for_wrap (text : List Char) : List (List Char) :=
  tokenizeAux [] none text

/-- `str_width` from `epub_converter.py`: the rendered width of a string
for a font/size pair, modelled by its per-character width function `cw`
(reportlab's `stringWidth` is the sum of per-glyph widths). -/
def str_width (cw : Char → ℚ) (s : List Char) : ℚ := (s.map cw).sum

/-- The character-by-character fallback of `wrap_cjk_aware` (the
`piece` loops at lines 95-102 and 110-117): greedily grow `piece`
while it still fits, flushing a completed line (when non-empty) each
time the next character would overflow.  Returns the flushed lines and
the final `piece`. -/
def charSplit (cw : Char → ℚ) (W : ℚ) : List Char → List Char → List (List Char) × List Char
  | piece, [] => ([], piece)
  | piece, ch :: rest =>
    if str_width cw (piece ++ [ch]) ≤ W then charSplit cw W (piece ++ [ch]) rest
    else
      let r := charSplit cw W [ch] rest
      ((if piece = [] then [] else [piece]) ++ r.1, r.2)

/-- The token loop of `wrap_cjk_aware` (lines 83-119) on one sub-line:
state is the accumulator `cur`; returns the flushed lines and the final
accumulator.  A token equal to the single space character may extend the
accumulator by one space when that still fits; any other token is packed
greedily, falling back to `charSplit` when it alone overflows. -/
def wrapTokens (cw : Char → ℚ) (W : ℚ) : List Char → List (List Char) → List (List Char) × List Char
  | cur, [] => ([], cur)
  | cur, tk :: rest =>
    if tk = [' '] then
      if cur ≠ [] ∧ cur.getLast? ≠ some ' ' then
        if str_width cw (cur ++ [' ']) ≤ W then wrapTokens cw W (cur ++ [' ']) rest
        else wrapTokens cw W cur rest
      else wrapTokens cw W cur rest
    else
      if cur = [] then
        if str_width cw tk ≤ W then wrapTokens cw W tk rest
        else
          let s := charSplit cw W [] tk
          let r := wrapTokens cw W s.2 rest
          (s.1 ++ r.1, r.2)
      else
        if str_width cw (cur ++ tk) ≤ W then wrapTokens cw W (cur ++ tk) rest
        else
          if W < str_width cw tk then
            let s := charSplit cw W [] tk
            let r := wrapTokens cw W s.2 rest
            (rstripL cur :: (s.1 ++ r.1), r.2)
          else
            let r := wrapTokens cw W tk rest
            (rstripL cur :: r.1, r.2)

/-- The per-sub-line body of `wrap_cjk_aware` (lines 79-120): a blank
but non-empty sub-line yields one empty line; otherwise tokenize, run
the token loop from an empty accumulator, and flush the right-stripped
final accumulator as the last line. -/
def wrapLine (cw : Char → ℚ) (W : ℚ) (raw : List Char) : List (List Char) :=
  if stripL raw = [] ∧ raw ≠ [] then [[]]
  else
    let r := wrapTokens cw W [] (tokenize_for_wrap raw)
    r.1 ++ [rstripL r.2]

/-- `wrap_cjk_aware` from `epub_converter.py`: split the text into
sub-lines (`text.splitlines() or [""]`) and wrap each independently. -/
def wrap_cjk_aware (cw : Char → ℚ) (text : List Char) (max_width : ℚ) : List (List Char) :=
  let ls := splitlinesL text
  ((if ls = [] then [[]] else ls).map (wrapLine cw max_width)).flatten

/-! Page geometry and drawing model.  The module constants of
`epub_converter.py`: `PAGE_SIZE = A4` (210mm × 297mm at 72 points per
inch, exact rationals), `MARGIN = 0` (borderless), `LINE_SPACING =
1.35`, `IMAGE_MAX_HEIGHT_RATIO = 0.98`. -/

/-- Page width of A4 in points: 210mm × 72/25.4. -/
def PAGE_W : ℚ := 75600 / 127

/-- Page height of A4 in points: 297mm × 72/25.4. -/
def PAGE_H : ℚ := 106920 / 127

/-- `MARGIN = 0 * cm` (borderless). -/
def MARGIN : ℚ := 0

/-- `LINE_SPACING = 1.35`. -/
def LINE_SPACING : ℚ := 27 / 20

/-- `IMAGE_MAX_HEIGHT_RATIO = 0.98`. -/
def IMG_MAX_H_FRAC : ℚ := 49 / 50

/-- Drawing commands emitted against the canvas: `page` is
`c.showPage()`, `text` is `c.drawString`, `image` is `c.drawImage`. -/
inductive Cmd where
  | page : Cmd
  | text (x y : ℚ) (s : List Char) : Cmd
  | image (x y w h : ℚ) : Cmd
deriving Repr, DecidableEq

/-- The image scaler of `draw_image` (line 142):
`scale = min(max_w / img_w, (page_h * ratio) / img_h)`. -/
def imageScale (max_w img_w img_h page_h frac : ℚ) : ℚ :=
  min (max_w / img_w) ((page_h * frac) / img_h)

/-- Drawn image width `img_w * scale` for the fixed A4 page. -/
def drawImgW (max_w img_w img_h : ℚ) : ℚ :=
  img_w * imageScale max_w img_w img_h PAGE_H IMG_MAX_H_FRAC

/-- Drawn image height `img_h * scale` for the fixed A4 page. -/
def drawImgH (max_w img_w img_h : ℚ) : ℚ :=
  img_h * imageScale max_w img_w img_h PAGE_H IMG_MAX_H_FRAC

/-- The per-line loop of `draw_paragraph` (lines 129-135): before each
line, a page break fires when `y - leading < MARGIN`, resetting `y` to
`PAGE_H - MARGIN`; the line is drawn at `y - leading` and `y` decreases
by `leading`. -/
def drawParaGo (x leading : ℚ) : ℚ → List (List Char) → List Cmd × ℚ
  | y, [] => ([], y)
  | y, L :: Ls =>
    if y - leading < MARGIN then
      let r := drawParaGo x leading ((PAGE_H - MARGIN) - leading) Ls
      (Cmd.page :: Cmd.text x ((PAGE_H - MARGIN) - leading) L :: r.1, r.2)
    else
      let r := drawParaGo x leading (y - leading) Ls
      (Cmd.text x (y - leading) L :: r.1, r.2)

/-- `draw_paragraph` from `epub_converter.py`: wrap the text against
`right_x - (x + indent_left)` and emit each line through the page-flow
loop; returns the emitted commands and the final vertical offset.  The
width capability `cw` stands for the `font_name`/`font_size` pair; the
numeric `font_size` is still passed separately because the leading is
computed from it. -/
def draw_paragraph (cw : Char → ℚ) (text : List Char) (x y right_x font_size indent_left : ℚ) : List Cmd × ℚ :=
  let leading := font_size * LINE_SPACING
  let max_width := right_x - (x + indent_left)
  drawParaGo (x + indent_left) leading y (wrap_cjk_aware cw text max_width)

/-- `draw_image` from `epub_converter.py` (lines 138-155): scale the
intrinsic `img_w × img_h` image to fit `right_x - x` and
`PAGE_H * 0.98`, break the page first when the scaled height does not
fit above the bottom margin, draw, and decrement the offset by the
drawn height. -/
def draw_image (img_w img_h x y right_x : ℚ) : List Cmd × ℚ :=
  let max_w := right_x - x
  let draw_w := drawImgW max_w img_w img_h
  let draw_h := drawImgH max_w img_w img_h
  let y1 := if y - draw_h < MARGIN then PAGE_H - MARGIN else y
  ((if y - draw_h < MARGIN then [Cmd.page] else []) ++ [Cmd.image x (y1 - draw_h) draw_w draw_h],
   y1 - draw_h)

/-! Abstract emissions, for stating the page-flow invariant shared by
the per-line loop of `draw_paragraph` and by `draw_image`. -/

/-- One vertical-space consumer: a text line (consuming its leading) or
an image (consuming its drawn height). -/
inductive Emission where
  | line (leading : ℚ) : Emission
  | image (max_w img_w img_h : ℚ) : Emission
deriving Repr, DecidableEq

/-- The vertical space an emission consumes. -/
def emissionNeed : Emission → ℚ
  | .line l => l
  | .image mw iw ih => drawImgH mw iw ih

/-- The common page-flow step (lines 130-135 and 146-154): break first
when the needed height does not fit above the bottom margin, then
decrement; returns the new offset and whether a break fired. -/
def emitStep (y : ℚ) (e : Emission) : ℚ × Bool :=
  if y - emissionNeed e < MARGIN then (((PAGE_H - MARGIN) - emissionNeed e), true)
  else (y - emissionNeed e, false)

/-- The offsets (paired with the break flag) after each emission of a
sequence, starting from offset `y`. -/
def runTrace (y : ℚ) : List Emission → List (ℚ × Bool)
  | [] => []
  | e :: es => emitStep y e :: runTrace (emitStep y e).1 es

/-- The offset after the last element of a trace, `y` for an empty
trace. -/
def lastY (y : ℚ) (t : List (ℚ × Bool)) : ℚ := ((t.getLast?).map Prod.fst).getD y

/-- What the spec asserts of one emission step: the post-emission offset
stays within `[MARGIN, PAGE_H - MARGIN]`; without a break the offset is
non-increasing and the emission fit above the bottom margin; a break
fires exactly when the emission would not have fit, and then the offset
restarts from the top edge minus the consumed height. -/
def stepOk (e : Emission) (ypre : ℚ) (r : ℚ × Bool) : Prop :=
  MARGIN ≤ r.1 ∧ r.1 ≤ PAGE_H - MARGIN ∧
  (r.2 = false → r.1 ≤ ypre ∧ MARGIN ≤ ypre - emissionNeed e) ∧
  (r.2 = true → r.1 = (PAGE_H - MARGIN) - emissionNeed e ∧ ypre - emissionNeed e < MARGIN)

/-- `stepOk` holding along a whole trace. -/
def traceOk : ℚ → List Emission → List (ℚ × Bool) → Prop
  | _, [], t => t = []
  | y, e :: es, t =>
    match t with
    | [] => False
    | r :: t' => stepOk e y r ∧ traceOk r.1 es t'

/-- Emissions the renderer actually produces: a line's leading must fit
an empty page, an image must have positive intrinsic dimensions and a
non-negative width budget. -/
def validEmission : Emission → Prop
  | .line l => 0 ≤ l ∧ l ≤ PAGE_H - 2 * MARGIN
  | .image mw iw ih => 0 ≤ mw ∧ 0 < iw ∧ 0 < ih

/-! Concrete width functions used for witnesses and counterexamples. -/

/-- A sample font: every CJK character is 2 units wide, every other
character 1 unit. -/
def cwB (c : Char) : ℚ := if is_cjk_char c then 2 else 1

/-- A sample font in which the tab character is very wide (10 units)
and every other character is 1 unit. -/
def cwT (c : Char) : ℚ := if c = '\t' then 10 else 1

/-- An acceptable produced line for the width bound: it fits the max
width, or it is a single character (the unavoidable exception). -/
def GoodLine (cw : Char → ℚ) (W : ℚ) (L : List Char) : Prop :=
  str_width cw L ≤ W ∨ ∃ c, L = [c]

/-- The non-whitespace characters of a string, in order. -/
def nonWS (l : List Char) : List Char := l.filter (fun c => !pyIsSpace c)

/-! Basic lemmas about widths and stripping. -/

theorem str_width_append (cw : Char → ℚ) (a b : List Char) :
    str_width cw (a ++ b) = str_width cw a + str_width cw b := by
  simp [str_width]

theorem str_width_nonneg (cw : Char → ℚ) (h : ∀ c, 0 ≤ cw c) (l : List Char) :
    0 ≤ str_width cw l := by
  refine List.sum_nonneg ?_
  intro x hx
  rcases List.mem_map.mp hx with ⟨c, _, rfl⟩
  exact h c

theorem rstripL_eq_append (l : List Char) :
    ∃ t, l = rstripL l ++ t ∧ ∀ c ∈ t, pyIsSpace c = true := by
  refine ⟨(l.reverse.takeWhile pyIsSpace).reverse, ?_, ?_⟩
  · have h := List.takeWhile_append_dropWhile (p := pyIsSpace) (l := l.reverse)
    calc l = l.reverse.reverse := (List.reverse_reverse l).symm
      _ = (l.reverse.takeWhile pyIsSpace ++ l.reverse.dropWhile pyIsSpace).reverse := by rw [h]
      _ = rstripL l ++ (l.reverse.takeWhile pyIsSpace).reverse := by
          rw [List.reverse_append]
          rfl
  · intro c hc
    rw [List.mem_reverse] at hc
    exact List.mem_takeWhile_imp hc

theorem str_width_rstripL_le (cw : Char → ℚ) (h : ∀ c, 0 ≤ cw c) (l : List Char) :
    str_width cw (rstripL l) ≤ str_width cw l := by
  obtain ⟨t, ht, -⟩ := rstripL_eq_append l
  calc str_width cw (rstripL l) ≤ str_width cw (rstripL l) + str_width cw t := by
        have := str_width_nonneg cw h t
        linarith
    _ = str_width cw l := by rw [← str_width_append, ← ht]

theorem rstripL_singleton (c : Char) :
    rstripL [c] = if pyIsSpace c then [] else [c] := by
  by_cases h : pyIsSpace c <;> simp [rstripL, List.dropWhile, h]

/-! Lossless tokenization (claim C3). -/

theorem tokenizeAux_flatten (l : List Char) :
    ∀ buf last, (last = none → buf = []) →
    (tokenizeAux buf last l).flatten = buf ++ l.map nbspMap := by
  induction l with
  | nil =>
    intro buf last _
    by_cases h : buf = [] <;> simp [tokenizeAux, h]
  | cons c rest ih =>
    intro buf last hb
    have ih0 := ih [] none (fun _ => rfl)
    cases hsp : pyIsSpace (if c = NBSP then ' ' else c) with
    | true =>
      by_cases h : buf = [] <;>
        simp [tokenizeAux, hsp, h, ih0, nbspMap]
    | false =>
      have ih1 := ih [if c = NBSP then ' ' else c]
        (some (is_cjk_char (if c = NBSP then ' ' else c))) (by simp)
      cases last with
      | none =>
        have hbe := hb rfl
        subst hbe
        simp [tokenizeAux, hsp, ih1, nbspMap]
      | some lc =>
        have ih2 := ih (buf ++ [if c = NBSP then ' ' else c])
          (some (is_cjk_char (if c = NBSP then ' ' else c))) (by simp)
        cases hk : is_cjk_char (if c = NBSP then ' ' else c) <;>
          rw [hk] at ih1 ih2 <;> cases lc <;>
          simp [tokenizeAux, hsp, hk, ih1, ih2, nbspMap]

/-- Concatenating all tokens of `tokenize_for_wrap` reproduces the
input line with every U+00A0 replaced by U+0020 (shared lemma; the
claim-level statement is `tokenize_lossless`). -/
theorem tokenize_flatten_eq (line : List Char) :
    (tokenize_for_wrap line).flatten = line.map nbspMap := by
  simpa using tokenizeAux_flatten line [] none (fun _ => rfl)

/-! Width bound (claim C1): every produced line fits the max width or
is a single character. -/

theorem str_width_nil (cw : Char → ℚ) : str_width cw [] = 0 := by
  simp [str_width]

theorem GoodLine_nil (cw : Char → ℚ) {W : ℚ} (hW : 0 ≤ W) : GoodLine cw W [] :=
  Or.inl (by simpa [str_width_nil] using hW)

theorem GoodLine_rstripL (cw : Char → ℚ) {W : ℚ} (hcw : ∀ c, 0 ≤ cw c) (hW : 0 ≤ W)
    {l : List Char} (h : GoodLine cw W l) : GoodLine cw W (rstripL l) := by
  rcases h with h | ⟨c, rfl⟩
  · exact Or.inl ((str_width_rstripL_le cw hcw l).trans h)
  · rw [rstripL_singleton]
    by_cases hc : pyIsSpace c
    · simpa [hc] using GoodLine_nil cw hW
    · simp only [hc]
      exact Or.inr ⟨c, by simp⟩

theorem charSplit_good (cw : Char → ℚ) {W : ℚ} (_hcw : ∀ c, 0 ≤ cw c) (_hW : 0 ≤ W) :
    ∀ chars piece, GoodLine cw W piece →
      (∀ L ∈ (charSplit cw W piece chars).1, GoodLine cw W L) ∧
      GoodLine cw W (charSplit cw W piece chars).2 := by
  intro chars
  induction chars with
  | nil =>
    intro piece hp
    constructor
    · intro L hL
      simp [charSplit] at hL
    · simpa [charSplit] using hp
  | cons ch rest ih =>
    intro piece hp
    by_cases hfit : str_width cw (piece ++ [ch]) ≤ W
    · have := ih (piece ++ [ch]) (Or.inl hfit)
      constructor
      · intro L hL
        rw [show charSplit cw W piece (ch :: rest) = charSplit cw W (piece ++ [ch]) rest by
          simp [charSplit, hfit]] at hL
        exact this.1 L hL
      · rw [show charSplit cw W piece (ch :: rest) = charSplit cw W (piece ++ [ch]) rest by
          simp [charSplit, hfit]]
        exact this.2
    · have hrec := ih [ch] (Or.inr ⟨ch, rfl⟩)
      have heq : charSplit cw W piece (ch :: rest) =
          ((if piece = [] then [] else [piece]) ++ (charSplit cw W [ch] rest).1,
           (charSplit cw W [ch] rest).2) := by
        simp [charSplit, hfit]
      constructor
      · intro L hL
        rw [heq] at hL
        rcases List.mem_append.mp hL with h | h
        · by_cases hpe : piece = []
          · simp [hpe] at h
          · simp [hpe] at h
            subst h
            exact hp
        · exact hrec.1 L h
      · rw [heq]
        exact hrec.2

theorem wrapTokens_good (cw : Char → ℚ) {W : ℚ} (hcw : ∀ c, 0 ≤ cw c) (hW : 0 ≤ W) :
    ∀ tokens cur, GoodLine cw W cur →
      (∀ L ∈ (wrapTokens cw W cur tokens).1, GoodLine cw W L) ∧
      GoodLine cw W (wrapTokens cw W cur tokens).2 := by
  intro tokens
  induction tokens with
  | nil =>
    intro cur hc
    constructor
    · intro L hL
      simp [wrapTokens] at hL
    · simpa [wrapTokens] using hc
  | cons tk rest ih =>
    intro cur hc
    by_cases hsp : tk = [' ']
    · by_cases h1 : cur ≠ [] ∧ cur.getLast? ≠ some ' '
      · by_cases h2 : str_width cw (cur ++ [' ']) ≤ W
        · have := ih (cur ++ [' ']) (Or.inl h2)
          constructor
          · intro L hL
            rw [show wrapTokens cw W cur (tk :: rest) = wrapTokens cw W (cur ++ [' ']) rest by
              simp [wrapTokens, hsp, h1, h2]] at hL
            exact this.1 L hL
          · rw [show wrapTokens cw W cur (tk :: rest) = wrapTokens cw W (cur ++ [' ']) rest by
              simp [wrapTokens, hsp, h1, h2]]
            exact this.2
        · have := ih cur hc
          constructor
          · intro L hL
            rw [show wrapTokens cw W cur (tk :: rest) = wrapTokens cw W cur rest by
              simp [wrapTokens, hsp, h1, h2]] at hL
            exact this.1 L hL
          · rw [show wrapTokens cw W cur (tk :: rest) = wrapTokens cw W cur rest by
              simp [wrapTokens, hsp, h1, h2]]
            exact this.2
      · have := ih cur hc
        constructor
        · intro L hL
          rw [show wrapTokens cw W cur (tk :: rest) = wrapTokens cw W cur rest by
            simp [wrapTokens, hsp, h1]] at hL
          exact this.1 L hL
        · rw [show wrapTokens cw W cur (tk :: rest) = wrapTokens cw W cur rest by
            simp [wrapTokens, hsp, h1]]
          exact this.2
    · by_cases hce : cur = []
      · subst hce
        by_cases h2 : str_width cw tk ≤ W
        · have := ih tk (Or.inl h2)
          constructor
          · intro L hL
            rw [show wrapTokens cw W [] (tk :: rest) = wrapTokens cw W tk rest by
              simp [wrapTokens, hsp, h2]] at hL
            exact this.1 L hL
          · rw [show wrapTokens cw W [] (tk :: rest) = wrapTokens cw W tk rest by
              simp [wrapTokens, hsp, h2]]
            exact this.2
        · obtain ⟨hs1, hs2⟩ := charSplit_good cw hcw hW tk [] (GoodLine_nil cw hW)
          obtain ⟨hr1, hr2⟩ := ih _ hs2
          have heq : wrapTokens cw W [] (tk :: rest) =
              ((charSplit cw W [] tk).1 ++ (wrapTokens cw W (charSplit cw W [] tk).2 rest).1,
               (wrapTokens cw W (charSplit cw W [] tk).2 rest).2) := by
            simp [wrapTokens, hsp, h2]
          constructor
          · intro L hL
            rw [heq] at hL
            rcases List.mem_append.mp hL with h | h
            · exact hs1 L h
            · exact hr1 L h
          · rw [heq]
            exact hr2
      · by_cases h2 : str_width cw (cur ++ tk) ≤ W
        · have := ih (cur ++ tk) (Or.inl h2)
          constructor
          · intro L hL
            rw [show wrapTokens cw W cur (tk :: rest) = wrapTokens cw W (cur ++ tk) rest by
              simp [wrapTokens, hsp, hce, h2]] at hL
            exact this.1 L hL
          · rw [show wrapTokens cw W cur (tk :: rest) = wrapTokens cw W (cur ++ tk) rest by
              simp [wrapTokens, hsp, hce, h2]]
            exact this.2
        · have hflush := GoodLine_rstripL cw hcw hW hc
          by_cases h3 : W < str_width cw tk
          · obtain ⟨hs1, hs2⟩ := charSplit_good cw hcw hW tk [] (GoodLine_nil cw hW)
            obtain ⟨hr1, hr2⟩ := ih _ hs2
            have heq : wrapTokens cw W cur (tk :: rest) =
                (rstripL cur :: ((charSplit cw W [] tk).1 ++
                  (wrapTokens cw W (charSplit cw W [] tk).2 rest).1),
                 (wrapTokens cw W (charSplit cw W [] tk).2 rest).2) := by
              simp [wrapTokens, hsp, hce, h2, h3]
            constructor
            · intro L hL
              rw [heq] at hL
              rcases List.mem_cons.mp hL with h | h
              · subst h
                exact hflush
              · rcases List.mem_append.mp h with h | h
                · exact hs1 L h
                · exact hr1 L h
            · rw [heq]
              exact hr2
          · have h4 : str_width cw tk ≤ W := le_of_not_lt h3
            obtain ⟨hr1, hr2⟩ := ih tk (Or.inl h4)
            have heq : wrapTokens cw W cur (tk :: rest) =
                (rstripL cur :: (wrapTokens cw W tk rest).1, (wrapTokens cw W tk rest).2) := by
              simp [wrapTokens, hsp, hce, h2, h3]
            constructor
            · intro L hL
              rw [heq] at hL
              rcases List.mem_cons.mp hL with h | h
              · subst h
                exact hflush
              · exact hr1 L h
            · rw [heq]
              exact hr2

theorem wrapLine_good (cw : Char → ℚ) {W : ℚ} (hcw : ∀ c, 0 ≤ cw c) (hW : 0 ≤ W)
    (raw : List Char) : ∀ L ∈ wrapLine cw W raw, GoodLine cw W L := by
  intro L hL
  unfold wrapLine at hL
  split at hL
  · simp at hL
    subst hL
    exact GoodLine_nil cw hW
  · obtain ⟨h1, h2⟩ := wrapTokens_good cw hcw hW (tokenize_for_wrap raw) [] (GoodLine_nil cw hW)
    rcases List.mem_append.mp hL with h | h
    · exact h1 L h
    · simp at h
      subst h
      exact GoodLine_rstripL cw hcw hW h2

/-- C1 (amended): for a non-negative max width `W` and a font with
non-negative character widths, every line produced by `wrap_cjk_aware`
measures at most `W`, except possibly a line that is one single
character.  (As literally stated — for *every* max width — the claim
fails at negative `W`; see `wrap_width_bound_cex`.) -/
theorem wrap_width_bound (cw : Char → ℚ) (hcw : ∀ c, 0 ≤ cw c) (W : ℚ) (hW : 0 ≤ W)
    (text : List Char) :
    ∀ L ∈ wrap_cjk_aware cw text W, str_width cw L ≤ W ∨ ∃ c, L = [c] := by
  intro L hL
  unfold wrap_cjk_aware at hL
  rcases List.mem_flatten.mp hL with ⟨lines, hlines, hLmem⟩
  rcases List.mem_map.mp hlines with ⟨raw, _, rfl⟩
  exact wrapLine_good cw hcw hW raw L hLmem

/-! Page-flow invariant (claim C2). -/

theorem validEmission_need {e : Emission} (h : validEmission e) :
    0 ≤ emissionNeed e ∧ emissionNeed e ≤ PAGE_H - 2 * MARGIN := by
  cases e with
  | line l => exact h
  | image mw iw ih =>
    obtain ⟨hmw, hiw, hih⟩ := h
    have hfr : (0:ℚ) ≤ PAGE_H * IMG_MAX_H_FRAC := by norm_num [PAGE_H, IMG_MAX_H_FRAC]
    constructor
    · refine mul_nonneg hih.le (le_min (div_nonneg hmw hiw.le) (div_nonneg hfr hih.le))
    · have h1 : emissionNeed (Emission.image mw iw ih) ≤ ih * ((PAGE_H * IMG_MAX_H_FRAC) / ih) := by
        unfold emissionNeed drawImgH imageScale
        exact mul_le_mul_of_nonneg_left (min_le_right _ _) hih.le
      have h2 : ih * ((PAGE_H * IMG_MAX_H_FRAC) / ih) = PAGE_H * IMG_MAX_H_FRAC := by
        rw [mul_comm]
        exact div_mul_cancel₀ _ (ne_of_gt hih)
      have h3 : PAGE_H * IMG_MAX_H_FRAC ≤ PAGE_H - 2 * MARGIN := by
        norm_num [PAGE_H, IMG_MAX_H_FRAC, MARGIN]
      calc emissionNeed (Emission.image mw iw ih) ≤ PAGE_H * IMG_MAX_H_FRAC := h1.trans h2.le
        _ ≤ PAGE_H - 2 * MARGIN := h3

theorem emitStep_ok (e : Emission) (y : ℚ) (hv : validEmission e)
    (h1 : MARGIN ≤ y) (h2 : y ≤ PAGE_H - MARGIN) : stepOk e y (emitStep y e) := by
  obtain ⟨hn0, hn1⟩ := validEmission_need hv
  unfold emitStep stepOk
  by_cases hbr : y - emissionNeed e < MARGIN
  · rw [if_pos hbr]
    refine ⟨by simp only; linarith, by simp only; linarith, ?_, ?_⟩
    · intro h
      simp at h
    · intro _
      exact ⟨rfl, hbr⟩
  · rw [if_neg hbr]
    push_neg at hbr
    refine ⟨by simpa using hbr, by simp only; linarith, ?_, ?_⟩
    · intro _
      exact ⟨by simp only; linarith, hbr⟩
    · intro h
      simp at h

theorem lastY_cons (y : ℚ) (r : ℚ × Bool) (t : List (ℚ × Bool)) :
    lastY y (r :: t) = lastY r.1 t := by
  cases t with
  | nil => simp [lastY]
  | cons a t' =>
    cases h : (a :: t').getLast? with
    | none => simp at h
    | some p => simp [lastY, List.getLast?_cons_cons, h]

theorem runTrace_ok : ∀ es y, (∀ e ∈ es, validEmission e) →
    MARGIN ≤ y → y ≤ PAGE_H - MARGIN → traceOk y es (runTrace y es) := by
  intro es
  induction es with
  | nil =>
    intro y _ _ _
    simp [runTrace, traceOk]
  | cons e es ih =>
    intro y hv h1 h2
    have hs := emitStep_ok e y (hv e (by simp)) h1 h2
    exact ⟨hs, ih _ (fun e' he' => hv e' (by simp [he'])) hs.1 hs.2.1⟩

theorem drawParaGo_runTrace (x leading : ℚ) :
    ∀ Ls y, (drawParaGo x leading y Ls).2 =
      lastY y (runTrace y (Ls.map (fun _ => Emission.line leading))) := by
  intro Ls
  induction Ls with
  | nil =>
    intro y
    simp [drawParaGo, runTrace, lastY]
  | cons L Ls ih =>
    intro y
    have hstep : emitStep y (Emission.line leading) =
        if y - leading < MARGIN then ((PAGE_H - MARGIN) - leading, true) else (y - leading, false) := by
      unfold emitStep emissionNeed
      rfl
    by_cases hbr : y - leading < MARGIN
    · rw [show (drawParaGo x leading y (L :: Ls)).2 =
          (drawParaGo x leading ((PAGE_H - MARGIN) - leading) Ls).2 by
        simp [drawParaGo, hbr]]
      rw [show runTrace y ((L :: Ls).map (fun _ => Emission.line leading)) =
          emitStep y (Emission.line leading) ::
            runTrace (emitStep y (Emission.line leading)).1 (Ls.map (fun _ => Emission.line leading)) by
        simp [runTrace]]
      rw [lastY_cons, hstep, if_pos hbr]
      exact ih _
    · rw [show (drawParaGo x leading y (L :: Ls)).2 =
          (drawParaGo x leading (y - leading) Ls).2 by
        simp [drawParaGo, hbr]]
      rw [show runTrace y ((L :: Ls).map (fun _ => Emission.line leading)) =
          emitStep y (Emission.line leading) ::
            runTrace (emitStep y (Emission.line leading)).1 (Ls.map (fun _ => Emission.line leading)) by
        simp [runTrace]]
      rw [lastY_cons, hstep, if_neg hbr]
      exact ih _

theorem draw_image_emitStep (img_w img_h x y right_x : ℚ) :
    (draw_image img_w img_h x y right_x).2 =
      (emitStep y (Emission.image (right_x - x) img_w img_h)).1 := by
  unfold draw_image emitStep emissionNeed
  by_cases hbr : y - drawImgH (right_x - x) img_w img_h < MARGIN
  · simp [hbr]
  · simp [hbr]

/-- C2 (amended): for emission sequences whose lines have a leading
between `0` and `PAGE_H - 2 * MARGIN` and whose images have positive
intrinsic dimensions and a non-negative width budget, every emission
leaves the offset within `[MARGIN, PAGE_H - MARGIN]`, the offset is
non-increasing at a break-free emission, and a break fires exactly when
the emission would not fit, resetting the offset to
`PAGE_H - MARGIN` before the decrement.  The last two conjuncts tie the
abstract steps to `draw_paragraph` and `draw_image`.  (As literally
stated — for *any* sequence of emissions — the claim fails for a
leading larger than the page height; see `page_flow_invariant_cex`.) -/
theorem page_flow_invariant :
    (∀ es y0, (∀ e ∈ es, validEmission e) → MARGIN ≤ y0 → y0 ≤ PAGE_H - MARGIN →
      traceOk y0 es (runTrace y0 es)) ∧
    (∀ cw text x y rx fs ind, (draw_paragraph cw text x y rx fs ind).2 =
      lastY y (runTrace y ((wrap_cjk_aware cw text (rx - (x + ind))).map
        (fun _ => Emission.line (fs * LINE_SPACING))))) ∧
    (∀ iw ih x y rx, (draw_image iw ih x y rx).2 =
      (emitStep y (Emission.image (rx - x) iw ih)).1) := by
  refine ⟨runTrace_ok, ?_, draw_image_emitStep⟩
  intro cw text x y rx fs ind
  exact drawParaGo_runTrace (x + ind) (fs * LINE_SPACING) (wrap_cjk_aware cw text (rx - (x + ind))) y

/-! No lost content (claim C9): wrapping preserves the non-whitespace
characters of the input, in order. -/

theorem nonWS_append (a b : List Char) : nonWS (a ++ b) = nonWS a ++ nonWS b := by
  simp [nonWS]

theorem nonWS_all_ws {l : List Char} (h : ∀ c ∈ l, pyIsSpace c = true) : nonWS l = [] := by
  simp only [nonWS, List.filter_eq_nil_iff]
  intro c hc
  simp [h c hc]

theorem nonWS_rstripL (l : List Char) : nonWS (rstripL l) = nonWS l := by
  obtain ⟨t, ht, hws⟩ := rstripL_eq_append l
  conv_rhs => rw [ht]
  rw [nonWS_append, nonWS_all_ws hws, List.append_nil]

theorem nonWS_space_cons (l : List Char) : nonWS (' ' :: l) = nonWS l := by
  have h : (!pyIsSpace ' ') = false := by decide
  simp [nonWS, List.filter_cons, h]

theorem nonWS_nbspMap (l : List Char) : nonWS (l.map nbspMap) = nonWS l := by
  induction l with
  | nil => simp
  | cons c rest ih =>
    by_cases hc : c = NBSP
    · subst hc
      have h1 : pyIsSpace NBSP = true := by decide
      have h2 : pyIsSpace ' ' = true := by decide
      simp [nonWS, nbspMap, h1, h2] at ih ⊢
      exact ih
    · by_cases hs : pyIsSpace c
      · simp [nonWS, nbspMap, hc, hs] at ih ⊢
        exact ih
      · simp [nonWS, nbspMap, hc, hs] at ih ⊢
        exact ih

theorem nonWS_stripL_eq_nil {l : List Char} (h : stripL l = []) : nonWS l = [] := by
  unfold stripL rstripL at h
  have h2 : (lstripL l).reverse.dropWhile pyIsSpace = [] := by
    have := congrArg List.reverse h
    simpa using this
  have h3 : ∀ c ∈ (lstripL l).reverse, pyIsSpace c = true := by
    intro c hc
    exact List.dropWhile_eq_nil_iff.mp h2 c hc
  have h4 : ∀ c ∈ lstripL l, pyIsSpace c = true := by
    intro c hc
    exact h3 c (List.mem_reverse.mpr hc)
  have h5 : ∀ c ∈ l.takeWhile pyIsSpace, pyIsSpace c = true := by
    intro c hc
    exact List.mem_takeWhile_imp hc
  have hl : l = l.takeWhile pyIsSpace ++ lstripL l :=
    (List.takeWhile_append_dropWhile (p := pyIsSpace) (l := l)).symm
  rw [hl, nonWS_append, nonWS_all_ws h5, nonWS_all_ws h4]
  rfl

theorem charSplit_nonWS (cw : Char → ℚ) (W : ℚ) :
    ∀ chars piece, nonWS ((charSplit cw W piece chars).1.flatten ++ (charSplit cw W piece chars).2) =
      nonWS (piece ++ chars) := by
  intro chars
  induction chars with
  | nil =>
    intro piece
    simp [charSplit]
  | cons ch rest ih =>
    intro piece
    by_cases hfit : str_width cw (piece ++ [ch]) ≤ W
    · rw [show charSplit cw W piece (ch :: rest) = charSplit cw W (piece ++ [ch]) rest by
        simp [charSplit, hfit]]
      rw [ih (piece ++ [ch])]
      simp
    · have heq : charSplit cw W piece (ch :: rest) =
          ((if piece = [] then [] else [piece]) ++ (charSplit cw W [ch] rest).1,
           (charSplit cw W [ch] rest).2) := by
        simp [charSplit, hfit]
      rw [heq]
      by_cases hpe : piece = []
      · subst hpe
        simpa using ih [ch]
      · have : nonWS ((([piece] ++ (charSplit cw W [ch] rest).1).flatten) ++ (charSplit cw W [ch] rest).2) =
            nonWS piece ++ nonWS (((charSplit cw W [ch] rest).1.flatten) ++ (charSplit cw W [ch] rest).2) := by
          simp [nonWS_append]
        rw [if_neg hpe, this, ih [ch]]
        simp [nonWS_append]

theorem wrapTokens_nonWS (cw : Char → ℚ) (W : ℚ) :
    ∀ tokens cur, nonWS ((wrapTokens cw W cur tokens).1.flatten ++ (wrapTokens cw W cur tokens).2) =
      nonWS (cur ++ tokens.flatten) := by
  intro tokens
  induction tokens with
  | nil =>
    intro cur
    simp [wrapTokens]
  | cons tk rest ih =>
    intro cur
    have hsp_space : nonWS [' '] = [] := by decide
    by_cases hsp : tk = [' ']
    · subst hsp
      by_cases h1 : cur ≠ [] ∧ cur.getLast? ≠ some ' '
      · by_cases h2 : str_width cw (cur ++ [' ']) ≤ W
        · rw [show wrapTokens cw W cur ([' '] :: rest) = wrapTokens cw W (cur ++ [' ']) rest by
            simp [wrapTokens, h1, h2]]
          rw [ih (cur ++ [' '])]
          simp [nonWS_append, hsp_space, nonWS_space_cons]
        · rw [show wrapTokens cw W cur ([' '] :: rest) = wrapTokens cw W cur rest by
            simp [wrapTokens, h1, h2]]
          rw [ih cur]
          simp [nonWS_append, hsp_space, nonWS_space_cons]
      · rw [show wrapTokens cw W cur ([' '] :: rest) = wrapTokens cw W cur rest by
          simp [wrapTokens, h1]]
        rw [ih cur]
        simp [nonWS_append, hsp_space, nonWS_space_cons]
    · by_cases hce : cur = []
      · subst hce
        by_cases h2 : str_width cw tk ≤ W
        · rw [show wrapTokens cw W [] (tk :: rest) = wrapTokens cw W tk rest by
            simp [wrapTokens, hsp, h2]]
          rw [ih tk]
          simp [nonWS_append]
        · have heq : wrapTokens cw W [] (tk :: rest) =
              ((charSplit cw W [] tk).1 ++ (wrapTokens cw W (charSplit cw W [] tk).2 rest).1,
               (wrapTokens cw W (charSplit cw W [] tk).2 rest).2) := by
            simp [wrapTokens, hsp, h2]
          rw [heq]
          calc nonWS (((charSplit cw W [] tk).1 ++ (wrapTokens cw W (charSplit cw W [] tk).2 rest).1).flatten ++
                  (wrapTokens cw W (charSplit cw W [] tk).2 rest).2)
              = nonWS ((charSplit cw W [] tk).1.flatten) ++
                  nonWS ((wrapTokens cw W (charSplit cw W [] tk).2 rest).1.flatten ++
                    (wrapTokens cw W (charSplit cw W [] tk).2 rest).2) := by
                rw [List.flatten_append, List.append_assoc, nonWS_append]
            _ = nonWS ((charSplit cw W [] tk).1.flatten) ++
                  (nonWS (charSplit cw W [] tk).2 ++ nonWS rest.flatten) := by
                rw [ih (charSplit cw W [] tk).2, nonWS_append]
            _ = nonWS ((charSplit cw W [] tk).1.flatten ++ (charSplit cw W [] tk).2) ++ nonWS rest.flatten := by
                rw [← List.append_assoc, nonWS_append]
            _ = nonWS ([] ++ tk) ++ nonWS rest.flatten := by rw [charSplit_nonWS]
            _ = nonWS ([] ++ (tk :: rest).flatten) := by simp [nonWS_append]
      · by_cases h2 : str_width cw (cur ++ tk) ≤ W
        · rw [show wrapTokens cw W cur (tk :: rest) = wrapTokens cw W (cur ++ tk) rest by
            simp [wrapTokens, hsp, hce, h2]]
          rw [ih (cur ++ tk)]
          simp [nonWS_append]
        · by_cases h3 : W < str_width cw tk
          · have heq : wrapTokens cw W cur (tk :: rest) =
                (rstripL cur :: ((charSplit cw W [] tk).1 ++
                  (wrapTokens cw W (charSplit cw W [] tk).2 rest).1),
                 (wrapTokens cw W (charSplit cw W [] tk).2 rest).2) := by
              simp [wrapTokens, hsp, hce, h2, h3]
            rw [heq]
            calc nonWS ((rstripL cur :: ((charSplit cw W [] tk).1 ++
                    (wrapTokens cw W (charSplit cw W [] tk).2 rest).1)).flatten ++
                    (wrapTokens cw W (charSplit cw W [] tk).2 rest).2)
                = nonWS (rstripL cur) ++
                    nonWS (((charSplit cw W [] tk).1 ++
                      (wrapTokens cw W (charSplit cw W [] tk).2 rest).1).flatten ++
                      (wrapTokens cw W (charSplit cw W [] tk).2 rest).2) := by
                  rw [List.flatten_cons, List.append_assoc, nonWS_append]
              _ = nonWS cur ++
                    (nonWS ((charSplit cw W [] tk).1.flatten) ++
                      nonWS ((wrapTokens cw W (charSplit cw W [] tk).2 rest).1.flatten ++
                        (wrapTokens cw W (charSplit cw W [] tk).2 rest).2)) := by
                  rw [nonWS_rstripL, List.flatten_append, List.append_assoc, nonWS_append]
              _ = nonWS cur ++
                    (nonWS ((charSplit cw W [] tk).1.flatten) ++
                      (nonWS (charSplit cw W [] tk).2 ++ nonWS rest.flatten)) := by
                  rw [ih (charSplit cw W [] tk).2, nonWS_append]
              _ = nonWS cur ++
                    (nonWS ((charSplit cw W [] tk).1.flatten ++ (charSplit cw W [] tk).2) ++
                      nonWS rest.flatten) := by
                  simp [nonWS_append, List.append_assoc]
              _ = nonWS cur ++ (nonWS ([] ++ tk) ++ nonWS rest.flatten) := by rw [charSplit_nonWS]
              _ = nonWS (cur ++ (tk :: rest).flatten) := by simp [nonWS_append]
          · have heq : wrapTokens cw W cur (tk :: rest) =
                (rstripL cur :: (wrapTokens cw W tk rest).1, (wrapTokens cw W tk rest).2) := by
              simp [wrapTokens, hsp, hce, h2, h3]
            rw [heq]
            calc nonWS ((rstripL cur :: (wrapTokens cw W tk rest).1).flatten ++
                    (wrapTokens cw W tk rest).2)
                = nonWS (rstripL cur) ++
                    nonWS ((wrapTokens cw W tk rest).1.flatten ++ (wrapTokens cw W tk rest).2) := by
                  rw [List.flatten_cons, List.append_assoc, nonWS_append]
              _ = nonWS cur ++ nonWS (tk ++ rest.flatten) := by rw [nonWS_rstripL, ih tk]
              _ = nonWS (cur ++ (tk :: rest).flatten) := by simp [nonWS_append]

theorem wrapLine_nonWS (cw : Char → ℚ) (W : ℚ) (raw : List Char) :
    nonWS ((wrapLine cw W raw).flatten) = nonWS raw := by
  unfold wrapLine
  split
  · rename_i h
    simp only [List.flatten_cons, List.flatten_nil, List.append_nil]
    rw [nonWS_stripL_eq_nil h.1]
    rfl
  · have h := wrapTokens_nonWS cw W (tokenize_for_wrap raw) []
    have htok : (tokenize_for_wrap raw).flatten = raw.map nbspMap := tokenize_flatten_eq raw
    simp only [List.nil_append, htok] at h
    simp only [List.flatten_append, List.flatten_cons, List.flatten_nil, List.append_nil]
    rw [nonWS_append, nonWS_rstripL, ← nonWS_append, h, nonWS_nbspMap]

theorem pyIsLinebreak_isSpace {c : Char} (h : pyIsLinebreak c = true) : pyIsSpace c = true := by
  simp [pyIsLinebreak] at h
  simp [pyIsSpace]
  omega

theorem splitlinesL_eq_nil_iff : ∀ l, splitlinesL l = [] ↔ l = [] := by
  intro l
  induction l using splitlinesL.induct with
  | case1 => simp [splitlinesL]
  | case2 rest ih =>
    rw [show splitlinesL ('\r' :: '\n' :: rest) = [] :: splitlinesL rest from rfl]
    simp
  | case3 c rest hne hlb ih =>
    rw [splitlinesL.eq_3 c rest hne, if_pos hlb]
    simp
  | case4 c rest hne hlb hsplit ih =>
    rw [splitlinesL.eq_3 c rest hne, if_neg hlb, hsplit]
    simp
  | case5 c rest hne hlb l ls hsplit ih =>
    rw [splitlinesL.eq_3 c rest hne, if_neg hlb, hsplit]
    simp

theorem splitlinesL_nonWS : ∀ l, nonWS ((splitlinesL l).flatten) = nonWS l := by
  intro l
  induction l using splitlinesL.induct with
  | case1 => simp [splitlinesL]
  | case2 rest ih =>
    have hr : pyIsSpace '\r' = true := by decide
    have hn : pyIsSpace '\n' = true := by decide
    rw [show splitlinesL ('\r' :: '\n' :: rest) = [] :: splitlinesL rest from rfl]
    simp only [List.flatten_cons, List.nil_append]
    rw [ih]
    simp [nonWS, List.filter_cons, hr, hn]
  | case3 c rest hne hlb ih =>
    rw [splitlinesL.eq_3 c rest hne, if_pos hlb]
    simp only [List.flatten_cons, List.nil_append]
    rw [ih]
    have hcs : pyIsSpace c = true := pyIsLinebreak_isSpace hlb
    simp [nonWS, List.filter_cons, hcs]
  | case4 c rest hne hlb hsplit ih =>
    rw [splitlinesL.eq_3 c rest hne, if_neg hlb, hsplit]
    have hrest : nonWS rest = [] := by
      rw [← ih, hsplit]
      rfl
    simp only [List.flatten_cons, List.flatten_nil, List.append_nil]
    rw [show (c :: rest) = [c] ++ rest from rfl, nonWS_append, hrest, List.append_nil]
  | case5 c rest hne hlb l ls hsplit ih =>
    rw [splitlinesL.eq_3 c rest hne, if_neg hlb, hsplit]
    rw [hsplit] at ih
    have h1 : ((c :: l) :: ls).flatten = c :: ((l :: ls).flatten) := by simp
    rw [h1, show (c :: (l :: ls).flatten) = [c] ++ (l :: ls).flatten from rfl, nonWS_append, ih,
        show (c :: rest) = [c] ++ rest from rfl, nonWS_append]

theorem flatten_map_wrapLine (cw : Char → ℚ) (W : ℚ) :
    ∀ Ls : List (List Char),
      nonWS (((Ls.map (wrapLine cw W)).flatten).flatten) = nonWS Ls.flatten := by
  intro Ls
  induction Ls with
  | nil => simp [nonWS]
  | cons raw Ls ih =>
    simp only [List.map_cons, List.flatten_cons, List.flatten_append]
    rw [nonWS_append, wrapLine_nonWS, ih, ← nonWS_append]

/-- C9: the concatenation of all lines returned by `wrap_cjk_aware`
contains exactly the non-whitespace characters of the input, in the
original order (U+00A0 is whitespace both before and after its
normalization to a space, so it affects neither side): wrapping never
drops or duplicates a non-whitespace character, for any width function
and any max width. -/
theorem wrap_no_lost_content (cw : Char → ℚ) (W : ℚ) (text : List Char) :
    nonWS ((wrap_cjk_aware cw text W).flatten) = nonWS text := by
  by_cases h : splitlinesL text = []
  · have htext : text = [] := (splitlinesL_eq_nil_iff text).mp h
    subst htext
    simp [wrap_cjk_aware, splitlinesL, wrapLine, stripL, lstripL, rstripL,
      tokenize_for_wrap, tokenizeAux, wrapTokens, nonWS]
  · rw [show wrap_cjk_aware cw text W = ((splitlinesL text).map (wrapLine cw W)).flatten by
      simp [wrap_cjk_aware, h]]
    rw [flatten_map_wrapLine, splitlinesL_nonWS]

/-! Space-token handling (claim C5). -/

/-- C5 (amended): for every token equal to the single space character
U+0020, the wrapper continues with either the unchanged accumulator or
the accumulator extended by exactly one space; the space is kept only
when the accumulator is non-empty, does not already end in a space, and
the extended accumulator still fits the max width.  In particular a
space token never flushes the accumulator as a line.  (As literally
stated for *every whitespace token*, the claim fails: a non-space
whitespace token such as a tab is treated as an ordinary token and can
force a break; see `space_token_step_cex`.) -/
theorem space_token_step (cw : Char → ℚ) (W : ℚ) (cur : List Char) (rest : List (List Char)) :
    ∃ cur', ((cur' = cur) ∨
      (cur' = cur ++ [' '] ∧ str_width cw cur' ≤ W ∧ cur ≠ [] ∧ cur.getLast? ≠ some ' ')) ∧
      wrapTokens cw W cur ([' '] :: rest) = wrapTokens cw W cur' rest := by
  by_cases h1 : cur ≠ [] ∧ cur.getLast? ≠ some ' '
  · by_cases h2 : str_width cw (cur ++ [' ']) ≤ W
    · exact ⟨cur ++ [' '], Or.inr ⟨rfl, h2, h1.1, h1.2⟩, by simp [wrapTokens, h1, h2]⟩
    · exact ⟨cur, Or.inl rfl, by simp [wrapTokens, h1, h2]⟩
  · exact ⟨cur, Or.inl rfl, by simp [wrapTokens, h1]⟩

/-! Nonpositive max width (claim C8): the wrapper has no up-front
validation and proceeds, character-splitting every token. -/

theorem str_width_pos (cw : Char → ℚ) (hpos : ∀ c, 0 < cw c) {l : List Char} (h : l ≠ []) :
    0 < str_width cw l := by
  cases l with
  | nil => exact absurd rfl h
  | cons c t =>
    have h1 : 0 ≤ str_width cw t := str_width_nonneg cw (fun c => (hpos c).le) t
    have h2 : str_width cw (c :: t) = cw c + str_width cw t := by simp [str_width]
    have := hpos c
    linarith

theorem charSplit_allOver (cw : Char → ℚ) {W : ℚ} (hpos : ∀ c, 0 < cw c) (hW : W ≤ 0) :
    ∀ rest ch piece, charSplit cw W piece (ch :: rest) =
      ((if piece = [] then [] else [piece]) ++ ((ch :: rest).dropLast).map (fun c => [c]),
       [rest.getLastD ch]) := by
  intro rest
  induction rest with
  | nil =>
    intro ch piece
    have hno : ¬ str_width cw (piece ++ [ch]) ≤ W := by
      have := str_width_pos cw hpos (l := piece ++ [ch]) (by simp)
      linarith
    simp [charSplit, hno]
  | cons d rest2 ih =>
    intro ch piece
    have hno : ¬ str_width cw (piece ++ [ch]) ≤ W := by
      have := str_width_pos cw hpos (l := piece ++ [ch]) (by simp)
      linarith
    have heq : charSplit cw W piece (ch :: d :: rest2) =
        ((if piece = [] then [] else [piece]) ++ (charSplit cw W [ch] (d :: rest2)).1,
         (charSplit cw W [ch] (d :: rest2)).2) := by
      simp [charSplit, hno]
    rw [heq, ih d [ch]]
    simp only [List.getLastD_cons]
    refine Prod.ext (by simp) ?_
    cases rest2 with
    | nil => simp
    | cons e r =>
      cases hg : (e :: r).getLast? with
      | none => simp at hg
      | some p => simp [List.getLast?_cons_cons, hg]

theorem cons_dropLast_getLastD (chars : List Char) (ch : Char) :
    (ch :: chars).dropLast ++ [chars.getLastD ch] = ch :: chars := by
  induction chars generalizing ch with
  | nil => simp
  | cons e r ih => rw [List.dropLast_cons₂, List.getLastD_cons, List.cons_append, ih e]

theorem wrapTokens_allOver (cw : Char → ℚ) {W : ℚ} (hpos : ∀ c, 0 < cw c) (hW : W ≤ 0) :
    ∀ tokens cur, (cur = [] ∨ ∃ c, cur = [c] ∧ pyIsSpace c = false) →
      (∀ t ∈ tokens, t ≠ [] ∧ ∀ c ∈ t, pyIsSpace c = false) →
      wrapTokens cw W cur tokens =
        (((cur ++ tokens.flatten).dropLast).map (fun c => [c]),
         ((cur ++ tokens.flatten).getLast?).elim [] (fun c => [c])) := by
  intro tokens
  induction tokens with
  | nil =>
    intro cur hcur _
    rcases hcur with rfl | ⟨c, rfl, hc⟩
    · simp [wrapTokens]
    · simp [wrapTokens]
  | cons tk rest ih =>
    intro cur hcur htok
    obtain ⟨htkne, htkws⟩ := htok tk (List.mem_cons_self tk rest)
    have htokrest : ∀ t ∈ rest, t ≠ [] ∧ ∀ c ∈ t, pyIsSpace c = false :=
      fun t ht => htok t (List.mem_cons_of_mem tk ht)
    obtain ⟨ch, chars, rfl⟩ := List.exists_cons_of_ne_nil htkne
    have hglast : chars.getLastD ch ∈ ch :: chars := List.getLastD_mem_cons chars ch
    have hglastws : pyIsSpace (chars.getLastD ch) = false := htkws _ hglast
    have hsp : ¬ (ch :: chars) = ([' '] : List Char) := by
      intro h
      rw [h] at htkws
      have := htkws ' ' (by simp)
      exact absurd this (by decide)
    have hnotk : ¬ str_width cw (ch :: chars) ≤ W := by
      have := str_width_pos cw hpos (l := ch :: chars) (by simp)
      linarith
    have hcs : charSplit cw W [] (ch :: chars) =
        (((ch :: chars).dropLast).map (fun c => [c]), [chars.getLastD ch]) := by
      rw [charSplit_allOver cw hpos hW chars ch []]
      simp
    have hrec := ih [chars.getLastD ch] (Or.inr ⟨_, rfl, hglastws⟩) htokrest
    have hsplit1 : (ch :: chars) ++ rest.flatten =
        (ch :: chars).dropLast ++ ([chars.getLastD ch] ++ rest.flatten) := by
      rw [← List.append_assoc, cons_dropLast_getLastD]
    have hne2 : ([chars.getLastD ch] ++ rest.flatten) ≠ [] := by simp
    have hdrop : ((ch :: chars) ++ rest.flatten).dropLast =
        (ch :: chars).dropLast ++ ([chars.getLastD ch] ++ rest.flatten).dropLast := by
      rw [hsplit1, List.dropLast_append_of_ne_nil _ hne2]
    have hlast : ((ch :: chars) ++ rest.flatten).getLast? =
        ([chars.getLastD ch] ++ rest.flatten).getLast? := by
      rw [hsplit1, List.getLast?_append_of_ne_nil _ hne2]
    rcases hcur with rfl | ⟨c, rfl, hc⟩
    · have heq : wrapTokens cw W [] ((ch :: chars) :: rest) =
          ((charSplit cw W [] (ch :: chars)).1 ++
            (wrapTokens cw W (charSplit cw W [] (ch :: chars)).2 rest).1,
           (wrapTokens cw W (charSplit cw W [] (ch :: chars)).2 rest).2) := by
        simp [wrapTokens, hsp, hnotk]
      rw [heq]
      simp only [hcs, hrec, List.nil_append, List.flatten_cons]
      rw [hdrop, hlast, List.map_append]
    · have hno2 : ¬ str_width cw (c :: ch :: chars) ≤ W := by
        have := str_width_pos cw hpos (l := c :: ch :: chars) (by simp)
        linarith
      have hlt : W < str_width cw (ch :: chars) :=
        lt_of_le_of_lt hW (str_width_pos cw hpos (by simp))
      have hstrip : rstripL [c] = [c] := by
        rw [rstripL_singleton]
        simp [hc]
      have heq : wrapTokens cw W [c] ((ch :: chars) :: rest) =
          (rstripL [c] :: ((charSplit cw W [] (ch :: chars)).1 ++
            (wrapTokens cw W (charSplit cw W [] (ch :: chars)).2 rest).1),
           (wrapTokens cw W (charSplit cw W [] (ch :: chars)).2 rest).2) := by
        simp [wrapTokens, hsp, hno2, hlt]
      rw [heq, hstrip]
      simp only [hcs, hrec, List.flatten_cons]
      have hne3 : (ch :: chars) ++ rest.flatten ≠ [] := by simp
      rw [show ([c] ++ ((ch :: chars) ++ rest.flatten)).dropLast =
            [c] ++ ((ch :: chars) ++ rest.flatten).dropLast from
          List.dropLast_append_of_ne_nil _ hne3,
        show ([c] ++ ((ch :: chars) ++ rest.flatten)).getLast? =
            ((ch :: chars) ++ rest.flatten).getLast? from
          List.getLast?_append_of_ne_nil _ hne3,
        hdrop, hlast, List.map_append, List.map_append]
      simp

theorem tokenizeAux_tokens_ne_nil (l : List Char) :
    ∀ buf last, (last = none → buf = []) → (last ≠ none → buf ≠ []) →
    ∀ t ∈ tokenizeAux buf last l, t ≠ [] := by
  induction l with
  | nil =>
    intro buf last _ _ t ht
    by_cases hb : buf = []
    · simp [tokenizeAux, hb] at ht
    · simp [tokenizeAux, hb] at ht
      subst ht
      exact hb
  | cons c rest ih =>
    intro buf last h1 h2 t ht
    have ih0 := ih [] none (fun _ => rfl) (fun h => absurd rfl h)
    cases hsp : pyIsSpace (if c = NBSP then ' ' else c) with
    | true =>
      by_cases hb : buf = []
      · simp [tokenizeAux, hsp, hb] at ht
        rcases ht with rfl | ht
        · simp
        · exact ih0 t ht
      · simp [tokenizeAux, hsp, hb] at ht
        rcases ht with rfl | rfl | ht
        · exact hb
        · simp
        · exact ih0 t ht
    | false =>
      have ih1 := ih [if c = NBSP then ' ' else c]
        (some (is_cjk_char (if c = NBSP then ' ' else c))) (by simp) (fun _ => by simp)
      cases last with
      | none =>
        have hbe := h1 rfl
        subst hbe
        simp only [tokenizeAux, hsp] at ht
        rw [if_neg (by simp [hsp])] at ht
        exact ih1 t ht
      | some lc =>
        have hbe : buf ≠ [] := h2 (by simp)
        have ih2 := ih (buf ++ [if c = NBSP then ' ' else c])
          (some (is_cjk_char (if c = NBSP then ' ' else c))) (by simp) (fun _ => by simp)
        cases hk : is_cjk_char (if c = NBSP then ' ' else c) <;> rw [hk] at ih1 ih2 <;>
          cases lc <;> simp [tokenizeAux, hsp, hk] at ht <;>
          first
          | (rcases ht with rfl | ht
             · exact hbe
             · exact ih1 t ht)
          | exact ih2 t ht

theorem tokenize_tokens_ne_nil (text : List Char) :
    ∀ t ∈ tokenize_for_wrap text, t ≠ [] :=
  tokenizeAux_tokens_ne_nil text [] none (fun _ => rfl) (fun h => absurd rfl h)

theorem tokenize_mem_nonws {text : List Char} (hws : ∀ c ∈ text, pyIsSpace c = false) :
    ∀ t ∈ tokenize_for_wrap text, ∀ c ∈ t, pyIsSpace c = false := by
  intro t ht c hc
  have hmem : c ∈ (tokenize_for_wrap text).flatten := List.mem_flatten.mpr ⟨t, ht, hc⟩
  rw [tokenize_flatten_eq] at hmem
  rcases List.mem_map.mp hmem with ⟨d, hd, rfl⟩
  have hdws := hws d hd
  have hid : nbspMap d = d := by
    unfold nbspMap
    by_cases h : d = NBSP
    · subst h
      exact absurd hdws (by decide)
    · simp [h]
  rw [hid]
  exact hdws

theorem splitlinesL_no_lb :
    ∀ l : List Char, (∀ c ∈ l, pyIsLinebreak c = false) → l ≠ [] → splitlinesL l = [l] := by
  intro l
  induction l using splitlinesL.induct with
  | case1 =>
    intro _ hne
    exact absurd rfl hne
  | case2 rest ih =>
    intro hlb _
    exact absurd (hlb '\r' (by simp)) (by decide)
  | case3 c rest hne2 hc ih =>
    intro hlb _
    exact absurd (hlb c (by simp)) (by simp [hc])
  | case4 c rest hne2 hc hsplit ih =>
    intro hlb _
    have hrest : rest = [] := (splitlinesL_eq_nil_iff rest).mp hsplit
    subst hrest
    rw [splitlinesL.eq_3 c [] hne2, if_neg hc]
    simp [splitlinesL]
  | case5 c rest hne2 hc l' ls' hsplit ih =>
    intro hlb _
    have hrest_ne : rest ≠ [] := by
      intro h
      subst h
      simp [splitlinesL] at hsplit
    have hlbrest : ∀ x ∈ rest, pyIsLinebreak x = false := fun x hx => hlb x (by simp [hx])
    have h2 : splitlinesL rest = [rest] := ih hlbrest hrest_ne
    rw [splitlinesL.eq_3 c rest hne2, if_neg hc, hsplit]
    rw [hsplit] at h2
    injection h2 with ha hb
    subst ha
    subst hb
    rfl

/-- C8 (amended): the wrapper performs no up-front validation of the
max width.  A nonpositive max width is accepted and wrapping proceeds:
with strictly positive character widths nothing ever fits, so every
character of a whitespace-free non-empty input is emitted as its own
single-character line.  (The claim as stated — fail fast, reject the
configuration before layout begins — is false of the code, which has no
such check; see `no_fail_fast_cex`.) -/
theorem wrap_nonpos_width (cw : Char → ℚ) (hpos : ∀ c, 0 < cw c) (W : ℚ) (hW : W ≤ 0)
    (text : List Char) (hne : text ≠ []) (hws : ∀ c ∈ text, pyIsSpace c = false) :
    wrap_cjk_aware cw text W = text.map (fun c => [c]) := by
  have hlb : ∀ c ∈ text, pyIsLinebreak c = false := by
    intro c hc
    by_cases h : pyIsLinebreak c
    · exact absurd (pyIsLinebreak_isSpace h) (by simp [hws c hc])
    · simpa using h
  have hsplit : splitlinesL text = [text] := splitlinesL_no_lb text hlb hne
  have hstrip : ¬ (stripL text = [] ∧ text ≠ []) := by
    rintro ⟨h, -⟩
    have h1 := nonWS_stripL_eq_nil h
    have h2 : nonWS text = text :=
      List.filter_eq_self.mpr (fun c hc => by simp [hws c hc])
    exact hne (h2.symm.trans h1)
  have htoks : ∀ t ∈ tokenize_for_wrap text, t ≠ [] ∧ ∀ c ∈ t, pyIsSpace c = false :=
    fun t ht => ⟨tokenize_tokens_ne_nil text t ht, tokenize_mem_nonws hws t ht⟩
  have hflat : (tokenize_for_wrap text).flatten = text := by
    rw [tokenize_flatten_eq]
    have : ∀ c ∈ text, nbspMap c = c := by
      intro c hc
      unfold nbspMap
      by_cases h : c = NBSP
      · subst h
        exact absurd (hws NBSP hc) (by decide)
      · simp [h]
    rw [List.map_congr_left this]
    simp
  have hwt := wrapTokens_allOver cw hpos hW (tokenize_for_wrap text) [] (Or.inl rfl) htoks
  rw [List.nil_append, hflat] at hwt
  have hlmem : text.getLast hne ∈ text := List.getLast_mem hne
  have hlws : pyIsSpace (text.getLast hne) = false := hws _ hlmem
  have hlast? : text.getLast? = some (text.getLast hne) := List.getLast?_eq_getLast text hne
  have hw : wrap_cjk_aware cw text W = wrapLine cw W text := by
    unfold wrap_cjk_aware
    rw [hsplit]
    simp
  rw [hw]
  unfold wrapLine
  rw [if_neg hstrip, hwt]
  simp only [hlast?, Option.elim_some]
  rw [show rstripL [text.getLast hne] = [text.getLast hne] by
    rw [rstripL_singleton]
    simp [hlws]]
  have hd := List.dropLast_append_getLast hne
  calc text.dropLast.map (fun c => [c]) ++ [[text.getLast hne]]
      = text.dropLast.map (fun c => [c]) ++ [text.getLast hne].map (fun c => [c]) := by simp
    _ = (text.dropLast ++ [text.getLast hne]).map (fun c => [c]) := by rw [List.map_append]
    _ = text.map (fun c => [c]) := by rw [hd]

/-! Claim-level theorems, witnesses and counterexamples. -/

/-- C3: for every input line, concatenating in order all tokens
returned by `tokenize_for_wrap` yields exactly the input string with
every U+00A0 character replaced by U+0020.  (Proved for every string;
`wrap_cjk_aware` only ever passes strings without line breaks.) -/
theorem tokenize_lossless (line : List Char) :
    (tokenize_for_wrap line).flatten = line.map nbspMap :=
  tokenize_flatten_eq line

/-- C1 counterexample: at the negative max width `-1` (and the empty
input) the wrapper produces the empty line, whose measured width `0`
exceeds `-1` even though it is not a single character — so the width
bound does not hold for *every* max width as literally claimed. -/
theorem wrap_width_bound_cex :
    (([] : List Char) ∈ wrap_cjk_aware cwB [] (-1)) ∧
    ¬ (str_width cwB [] ≤ (-1 : ℚ) ∨ ∃ c, ([] : List Char) = [c]) := by
  constructor
  · rw [show wrap_cjk_aware cwB [] (-1) = [[]] from by
      simp +decide [wrap_cjk_aware, splitlinesL, wrapLine, stripL, lstripL, rstripL,
        tokenize_for_wrap, tokenizeAux, wrapTokens]]
    simp
  · rintro (h | ⟨c, hc⟩)
    · norm_num [str_width] at h
    · cases hc

/-- C1 witness: the line produced by wrapping `"ab"` at width `7` in
the sample font fits the bound. -/
theorem wrap_width_bound_witness :
    str_width cwB ['a', 'b'] ≤ 7 ∨ ∃ c, (['a', 'b'] : List Char) = [c] := by
  have hmem : (['a', 'b'] : List Char) ∈ wrap_cjk_aware cwB ['a', 'b'] 7 := by
    rw [show wrap_cjk_aware cwB ['a', 'b'] 7 = [['a', 'b']] from by
      simp +decide [wrap_cjk_aware, splitlinesL, wrapLine, stripL, lstripL, rstripL,
        tokenize_for_wrap, tokenizeAux, wrapTokens, charSplit, str_width, cwB, is_cjk_char]
      all_goals try norm_num
      all_goals try decide]
    simp
  exact wrap_width_bound cwB (fun c => by unfold cwB; split <;> norm_num) 7 (by norm_num)
    ['a', 'b'] ['a', 'b'] hmem

/-- C2 counterexample: a single line emission with font size 700
(leading 945, larger than the page height) leaves the vertical offset
below the bottom margin even though a page break fired first — the
"offset stays within `[margin, height − margin]` after every emission"
invariant does not hold for arbitrary emission sequences. -/
theorem page_flow_invariant_cex :
    (draw_paragraph cwB ['a'] 0 PAGE_H 100 700 0).2 < MARGIN := by
  simp +decide [draw_paragraph, drawParaGo, wrap_cjk_aware, splitlinesL, wrapLine, stripL,
    lstripL, rstripL, tokenize_for_wrap, tokenizeAux, wrapTokens, charSplit, str_width,
    cwB, is_cjk_char, MARGIN, PAGE_H, LINE_SPACING]
  all_goals try norm_num
  all_goals try decide

/-- C2 witness: a single valid line emission of leading 27 starting
from the top of the page satisfies the page-flow invariant. -/
theorem page_flow_invariant_witness :
    traceOk PAGE_H [Emission.line 27] (runTrace PAGE_H [Emission.line 27]) := by
  apply page_flow_invariant.1
  · intro e he
    simp only [List.mem_singleton] at he
    subst he
    exact ⟨by norm_num, by norm_num [PAGE_H, MARGIN]⟩
  · norm_num [MARGIN, PAGE_H]
  · norm_num [MARGIN, PAGE_H]

/-- C4: an over-wide single character is still emitted as a
one-character line: for any max width smaller than the measured width
of `"語"` alone, wrapping `"語"` produces exactly the one line `"語"` —
not an empty line and not an error (the embedded wrapper is a total
function, so termination holds by construction for every input). -/
theorem overwide_char_single_line (cw : Char → ℚ) (W : ℚ) (h : W < cw '語') :
    wrap_cjk_aware cw ['語'] W = [['語']] := by
  have h1 : ¬ cw '語' ≤ W := not_le.mpr h
  simp +decide [wrap_cjk_aware, splitlinesL, wrapLine, stripL, lstripL, rstripL,
    tokenize_for_wrap, tokenizeAux, wrapTokens, charSplit, str_width, h1]

/-- C4 witness: in the sample font (`"語"` has width 2) wrapping at max
width 1 still emits the line `"語"`. -/
theorem overwide_char_single_line_witness : wrap_cjk_aware cwB ['語'] 1 = [['語']] :=
  overwide_char_single_line cwB 1 (by rw [show cwB '語' = 2 from by decide]; norm_num)

/-- C5 counterexample: the tab character is whitespace and is produced
as a whitespace token, yet processing it from the accumulator `"ab"`
(max width 5, tab 10 units wide) flushes `"ab"` as a completed line —
a whitespace token *can* force a break; end to end,
`wrap("ab\tcd", 5)` yields three lines instead of leaving `"ab"` and
`"cd"` on one line. -/
theorem space_token_step_cex :
    pyIsSpace '\t' = true ∧
    tokenize_for_wrap ['a', 'b', '\t', 'c', 'd'] = [['a', 'b'], ['\t'], ['c', 'd']] ∧
    (wrapTokens cwT 5 ['a', 'b'] [['\t'], ['c', 'd']]).1 = [['a', 'b'], []] ∧
    wrap_cjk_aware cwT ['a', 'b', '\t', 'c', 'd'] 5 = [['a', 'b'], [], ['c', 'd']] := by
  refine ⟨by decide, by decide, ?_, ?_⟩
  · simp +decide [wrapTokens, charSplit, str_width, cwT, rstripL]
    all_goals try norm_num
    all_goals try decide
  · simp +decide [wrap_cjk_aware, splitlinesL, wrapLine, stripL, lstripL, rstripL,
      tokenize_for_wrap, tokenizeAux, wrapTokens, charSplit, str_width, cwT]
    all_goals try norm_num
    all_goals try decide

/-- C6: the image scaler computes
`scale = min(max_width / intrinsic_width, (page_height × fraction) / intrinsic_height)`
with drawn width/height `intrinsic × scale` (as used by `draw_image`
with the A4 page height), preserving the aspect ratio exactly; for
intrinsic size 2000×1000, max width 500, page height 800 and fraction
0.98 the scale is 1/4 and the image is drawn at 500×250. -/
theorem image_scaler_formula :
    (∀ mw iw ih : ℚ,
      drawImgW mw iw ih = iw * min (mw / iw) ((PAGE_H * IMG_MAX_H_FRAC) / ih) ∧
      drawImgH mw iw ih = ih * min (mw / iw) ((PAGE_H * IMG_MAX_H_FRAC) / ih) ∧
      drawImgW mw iw ih * ih = drawImgH mw iw ih * iw) ∧
    imageScale 500 2000 1000 800 (49 / 50) = 1 / 4 ∧
    (2000 : ℚ) * imageScale 500 2000 1000 800 (49 / 50) = 500 ∧
    (1000 : ℚ) * imageScale 500 2000 1000 800 (49 / 50) = 250 := by
  have hsc : imageScale 500 2000 1000 800 (49 / 50) = 1 / 4 := by
    unfold imageScale
    rw [min_eq_left (by norm_num)]
    norm_num
  refine ⟨?_, hsc, ?_, ?_⟩
  · intro mw iw ih
    refine ⟨rfl, rfl, ?_⟩
    unfold drawImgW drawImgH
    ring
  · rw [hsc]
    norm_num
  · rw [hsc]
    norm_num

/-- C7: `tokenize_for_wrap "ABC日本語DEF"` yields exactly
`["ABC", "日", "本", "語", "DEF"]` — each ideographic character its own
token — and wrapping in a font where `"ABC日本"` fits width 7 but
`"ABC日本語"` does not produces the lines `"ABC日本"` and `"語DEF"`. -/
theorem cjk_tokens_and_wrap :
    tokenize_for_wrap ['A', 'B', 'C', '日', '本', '語', 'D', 'E', 'F'] =
      [['A', 'B', 'C'], ['日'], ['本'], ['語'], ['D', 'E', 'F']] ∧
    str_width cwB ['A', 'B', 'C', '日', '本'] ≤ 7 ∧
    ¬ str_width cwB ['A', 'B', 'C', '日', '本', '語'] ≤ 7 ∧
    wrap_cjk_aware cwB ['A', 'B', 'C', '日', '本', '語', 'D', 'E', 'F'] 7 =
      [['A', 'B', 'C', '日', '本'], ['語', 'D', 'E', 'F']] := by
  refine ⟨by decide, ?_, ?_, ?_⟩
  · simp +decide [str_width, cwB, is_cjk_char]
    norm_num
  · simp +decide [str_width, cwB, is_cjk_char]
    norm_num
  · simp +decide [wrap_cjk_aware, splitlinesL, wrapLine, stripL, lstripL, rstripL,
      tokenize_for_wrap, tokenizeAux, wrapTokens, charSplit, str_width, cwB, is_cjk_char]
    all_goals try norm_num
    all_goals try decide

/-- C8 counterexample: the wrapper does not fail fast on a negative max
width: `wrap_cjk_aware` with max width `-1` performs no validation,
raises no error, and proceeds to produce layout output (here the line
`"a"`). -/
theorem no_fail_fast_cex : wrap_cjk_aware cwB ['a'] (-1) = [['a']] := by
  simp +decide [wrap_cjk_aware, splitlinesL, wrapLine, stripL, lstripL, rstripL,
    tokenize_for_wrap, tokenizeAux, wrapTokens, charSplit, str_width, cwB, is_cjk_char]
  all_goals try norm_num
  all_goals try decide

/-- C8 witness: wrapping `"ab"` at max width `-1` in a positive-width
font emits each character as its own line. -/
theorem wrap_nonpos_width_witness :
    wrap_cjk_aware cwB ['a', 'b'] (-1) = [['a'], ['b']] := by
  rw [wrap_nonpos_width cwB (fun c => by unfold cwB; split <;> norm_num) (-1) (by norm_num)
    ['a', 'b'] (by simp) (by decide)]
  rfl

theorem wrap_cjk_aware_nil (cw : Char → ℚ) (W : ℚ) : wrap_cjk_aware cw [] W = [[]] := by
  simp +decide [wrap_cjk_aware, splitlinesL, wrapLine, stripL, lstripL, rstripL,
    tokenize_for_wrap, tokenizeAux, wrapTokens]

/-- C10: wrapping the empty string yields exactly one line, the empty
string; consequently `draw_paragraph` on empty text emits exactly one
draw-text command, carrying the empty string, and decrements the
vertical offset by one leading (stated here for the case where the line
fits without a page break). -/
theorem empty_text_one_line :
    (∀ (cw : Char → ℚ) (W : ℚ), wrap_cjk_aware cw [] W = [[]]) ∧
    (∀ (cw : Char → ℚ) (x y rx fs ind : ℚ), MARGIN ≤ y - fs * LINE_SPACING →
      draw_paragraph cw [] x y rx fs ind =
        ([Cmd.text (x + ind) (y - fs * LINE_SPACING) []], y - fs * LINE_SPACING)) := by
  refine ⟨wrap_cjk_aware_nil, ?_⟩
  intro cw x y rx fs ind h
  have hnb : ¬ (y - fs * LINE_SPACING < MARGIN) := not_lt.mpr h
  simp only [draw_paragraph]
  rw [wrap_cjk_aware_nil]
  simp [drawParaGo, hnb]

/-- C10 witness: drawing the empty paragraph at font size 20 from the
top of the page emits one empty draw-text command and consumes one
leading. -/
theorem empty_text_one_line_witness :
    draw_paragraph cwB [] 0 PAGE_H 100 20 0 =
      ([Cmd.text (0 + 0) (PAGE_H - 20 * LINE_SPACING) []], PAGE_H - 20 * LINE_SPACING) :=
  empty_text_one_line.2 cwB 0 PAGE_H 100 20 0 (by norm_num [MARGIN, PAGE_H, LINE_SPACING])
